import Mathlib

/-!
Verification of the typed-header contract for the `Access-Control-Allow-Origin`
header (file `src/header/common/access_control_allow_origin.rs`).

Byte strings and text are both modelled as `List Nat` (bytes, respectively
Unicode code points).  The header value enum, `parse_header` and `fmt_header`
are translated directly from the Rust source.  The `url` crate and the
library error enum are not part of the repository sources, so they are
modelled from the specification where noted.
-/

namespace AccessControlAllowOriginHeader

/-- ASCII uppercase or lowercase letter. -/
def isAlpha (c : Nat) : Bool :=
  (65 ≤ c && c ≤ 90) || (97 ≤ c && c ≤ 122)

/-- ASCII digit. -/
def isDigit (c : Nat) : Bool :=
  48 ≤ c && c ≤ 57

/-- Characters allowed in a URL scheme: letters, digits, `+`, `-`, `.`. -/
def isSchemeChar (c : Nat) : Bool :=
  isAlpha c || isDigit c || c == 43 || c == 45 || c == 46

/-- An ASCII code point. -/
def isAscii (c : Nat) : Bool :=
  c < 128

/-- Every character except `/` (code 47). -/
def isNotSlash (c : Nat) : Bool :=
  !(c == 47)

/-- The wildcard literal `*` (one byte / one code point). -/
def starLit : List Nat := [42]

/-- The literal `null` as bytes / code points. -/
def nullLit : List Nat := [110, 117, 108, 108]

/-- Modelled from the spec: the structured origin carried by the `Value`
variant, "a fully-parsed absolute URL (scheme + authority, as a structured
origin, not a raw string)".  The path is kept as given (after the
normalization performed by parsing). -/
structure Url where
  scheme : List Nat
  authority : List Nat
  path : List Nat
deriving DecidableEq, Repr

/-- Modelled from the spec: `Url::parse` of the external `url` crate,
restricted to the absolute URLs of the wire grammar
`scheme "://" authority path`.  The scheme must start with a letter and
consist of scheme characters, the authority is the nonempty run up to the
first `/`, and an empty path is normalized to `/` (URL normalization, so the
serialized form need not be byte-identical to the input). -/
def urlParse (s : List Nat) : Option Url :=
  match (s.takeWhile isSchemeChar).head? with
  | none => none
  | some c =>
    if isAlpha c then
      match s.dropWhile isSchemeChar with
      | 58 :: 47 :: 47 :: rest2 =>
        if !(rest2.takeWhile isNotSlash).isEmpty &&
            (rest2.takeWhile isNotSlash).all isAscii &&
            (rest2.dropWhile isNotSlash).all isAscii then
          some ⟨s.takeWhile isSchemeChar, rest2.takeWhile isNotSlash,
                if (rest2.dropWhile isNotSlash).isEmpty then [47]
                else rest2.dropWhile isNotSlash⟩
        else none
      | _ => none
    else none

/-- Modelled from the spec: the origin's standard serialized form
`scheme://authority/path-as-given` (`Display` of the `url` crate). -/
def urlSerialize (u : Url) : List Nat :=
  u.scheme ++ [58, 47, 47] ++ u.authority ++ u.path

/-- The structural invariant every parsed URL satisfies: alphabetic-initial
scheme of scheme characters, nonempty slash-free ASCII authority, ASCII path
starting with `/`. -/
def wellFormedUrl (u : Url) : Bool :=
  (match u.scheme.head? with | none => false | some c => isAlpha c) &&
  u.scheme.all isSchemeChar &&
  !u.authority.isEmpty &&
  u.authority.all (fun c => isAscii c && isNotSlash c) &&
  (match u.path.head? with | none => false | some c => c == 47) &&
  u.path.all isAscii

/-- A UTF-8 continuation byte (`10xxxxxx`). -/
def isCont (b : Nat) : Bool :=
  128 ≤ b && b ≤ 191

/-- Decode one UTF-8 scalar value from a leading byte `b` and the remaining
bytes `bs`: the decoded code point and the rest of the input, or `none` on an
ill-formed sequence.  The range checks on the second byte reject overlong
encodings, surrogates and values above `U+10FFFF`, exactly as
`str::from_utf8` of the Rust standard library does. -/
def utf8DecodeOne (b : Nat) (bs : List Nat) : Option (Nat × List Nat) :=
  if b < 128 then some (b, bs)
  else if 194 ≤ b && b ≤ 223 then
    match bs with
    | b2 :: bs2 =>
      if isCont b2 then some ((b - 192) * 64 + (b2 - 128), bs2) else none
    | [] => none
  else if 224 ≤ b && b ≤ 239 then
    match bs with
    | b2 :: b3 :: bs2 =>
      if (if b == 224 then 160 ≤ b2 && b2 ≤ 191
          else if b == 237 then 128 ≤ b2 && b2 ≤ 159
          else isCont b2) && isCont b3 then
        some ((b - 224) * 4096 + (b2 - 128) * 64 + (b3 - 128), bs2)
      else none
    | _ => none
  else if 240 ≤ b && b ≤ 244 then
    match bs with
    | b2 :: b3 :: b4 :: bs2 =>
      if (if b == 240 then 144 ≤ b2 && b2 ≤ 191
          else if b == 244 then 128 ≤ b2 && b2 ≤ 143
          else isCont b2) && isCont b3 && isCont b4 then
        some ((b - 240) * 262144 + (b2 - 128) * 4096 +
              (b3 - 128) * 64 + (b4 - 128), bs2)
      else none
    | _ => none
  else none

/-- Decode a whole byte string, one scalar value at a time.  The `fuel`
argument only drives the structural recursion: each step consumes at least
one byte, so with `fuel` at least the length of the input the
fuel-exhaustion branch is unreachable. -/
def utf8DecodeLoop : Nat → List Nat → Option (List Nat)
  | _, [] => some []
  | 0, _ :: _ => none
  | fuel + 1, b :: bs =>
    match utf8DecodeOne b bs with
    | none => none
    | some (c, rest) =>
      match utf8DecodeLoop fuel rest with
      | some t => some (c :: t)
      | none => none

/-- UTF-8 decoding (`str::from_utf8` of the Rust standard library): bytes to
code points, rejecting all ill-formed input. -/
def utf8Decode (l : List Nat) : Option (List Nat) :=
  utf8DecodeLoop l.length l

/-- UTF-8 encoding of one code point. -/
def utf8EncodeChar (c : Nat) : List Nat :=
  if c < 128 then [c]
  else if c < 2048 then [192 + c / 64, 128 + c % 64]
  else if c < 65536 then [224 + c / 4096, 128 + (c / 64) % 64, 128 + c % 64]
  else [240 + c / 262144, 128 + (c / 4096) % 64, 128 + (c / 64) % 64, 128 + c % 64]

/-- UTF-8 encoding of a code-point sequence. -/
def utf8Encode (l : List Nat) : List Nat :=
  l.flatMap utf8EncodeChar

/-- The typed value of the header: `enum AccessControlAllowOrigin`
with variants `Any`, `Null` and `Value(Url)`. -/
inductive AccessControlAllowOrigin where
  | Any : AccessControlAllowOrigin
  | Null : AccessControlAllowOrigin
  | Value : Url → AccessControlAllowOrigin
deriving DecidableEq, Repr

/-- Modelled from the spec: the library error enum is outside the sources;
the spec names three distinct kinds, `MultiplicityError` for a wrong number
of occurrences, `EncodingError` for invalid UTF-8, `FormatError` for
URL-syntax failure. -/
inductive HeaderError where
  | MultiplicityError : HeaderError
  | EncodingError : HeaderError
  | FormatError : HeaderError
deriving DecidableEq, Repr

/-- Outcome of `parse_header`.  `unreachableIndex` marks the branch where the
unchecked index `raw.get_unchecked(0)` would be out of bounds; the source
performs it without a check, so our total embedding makes the bad branch an
explicit marker value. -/
inductive ParseOutcome where
  | ok : AccessControlAllowOrigin → ParseOutcome
  | err : HeaderError → ParseOutcome
  | unreachableIndex : ParseOutcome
deriving DecidableEq, Repr

/-- Translation of `parse_header`: guard `raw.len() == 1`, read entry 0,
match the two literals byte-exactly, otherwise
`Url::parse(str::from_utf8(r)?)?`. -/
def parse_header (raw : List (List Nat)) : ParseOutcome :=
  if raw.length = 1 then
    match raw.get? 0 with
    | none => ParseOutcome.unreachableIndex
    | some r =>
      if r = starLit then ParseOutcome.ok AccessControlAllowOrigin.Any
      else if r = nullLit then ParseOutcome.ok AccessControlAllowOrigin.Null
      else
        match utf8Decode r with
        | none => ParseOutcome.err HeaderError.EncodingError
        | some t =>
          match urlParse t with
          | none => ParseOutcome.err HeaderError.FormatError
          | some u => ParseOutcome.ok (AccessControlAllowOrigin.Value u)
  else ParseOutcome.err HeaderError.MultiplicityError

/-- `Formatter::write_str`: append the UTF-8 bytes of the text to the sink.
The result type is fallible only because the Rust `fmt` contract is; the
sink itself never fails. -/
def writeStr (f : List Nat) (s : List Nat) : Option (List Nat) :=
  some (f ++ utf8Encode s)

/-- Translation of `fmt_header`: `Any` writes `"*"`, `Null` writes `"null"`,
`Value(url)` writes the url's `Display` form. -/
def fmt_header (v : AccessControlAllowOrigin) (f : List Nat) : Option (List Nat) :=
  match v with
  | AccessControlAllowOrigin.Any => writeStr f starLit
  | AccessControlAllowOrigin.Null => writeStr f nullLit
  | AccessControlAllowOrigin.Value u => writeStr f (urlSerialize u)

/-- The wire bytes produced by formatting a value into an empty sink. -/
def formatBytes (v : AccessControlAllowOrigin) : List Nat :=
  (fmt_header v []).getD []

/-- Translation of `header_name`, a function of no arguments returning the
fixed name. -/
def header_name : Unit → String :=
  fun _ => "Access-Control-Allow-Origin"

/-! ### List helper lemmas -/

theorem all_takeWhile (p : Nat → Bool) (l : List Nat) :
    (l.takeWhile p).all p = true := by
  rw [List.all_eq_true]
  exact fun x hx => List.mem_takeWhile_imp hx

theorem dropWhile_head_false (p : Nat → Bool) (l : List Nat) (c : Nat)
    (h : (l.dropWhile p).head? = some c) : p c = false := by
  induction l with
  | nil => simp [List.dropWhile] at h
  | cons a l ih =>
    rw [List.dropWhile_cons] at h
    by_cases hp : p a
    · rw [if_pos hp] at h
      exact ih h
    · rw [if_neg hp] at h
      simp at h
      subst h
      exact Bool.eq_false_iff.mpr hp

theorem takeWhile_all_append (p : Nat → Bool) (l1 l2 : List Nat)
    (h1 : ∀ c ∈ l1, p c = true)
    (h2 : ∀ c, l2.head? = some c → p c = false) :
    (l1 ++ l2).takeWhile p = l1 ∧ (l1 ++ l2).dropWhile p = l2 := by
  induction l1 with
  | nil =>
    cases l2 with
    | nil => simp
    | cons b l2t =>
      have hb := h2 b (by simp)
      simp [List.takeWhile_cons, List.dropWhile_cons, hb]
  | cons a l1t ih =>
    have ha := h1 a (by simp)
    have hrec := ih (fun c hc => h1 c (by simp [hc]))
    simp [List.takeWhile_cons, List.dropWhile_cons, ha, hrec.1, hrec.2]

/-! ### ASCII and UTF-8 lemmas -/

theorem isSchemeChar_lt_128 (c : Nat) (h : isSchemeChar c = true) : c < 128 := by
  unfold isSchemeChar isAlpha isDigit at h
  simp only [Bool.or_eq_true, Bool.and_eq_true, decide_eq_true_eq, beq_iff_eq] at h
  omega

theorem utf8DecodeLoop_ascii (fuel : Nat) (l : List Nat) (hf : l.length ≤ fuel)
    (h : ∀ c ∈ l, c < 128) : utf8DecodeLoop fuel l = some l := by
  induction fuel generalizing l with
  | zero =>
    cases l with
    | nil => rfl
    | cons b bs => simp at hf
  | succ fuel ih =>
    cases l with
    | nil => rfl
    | cons b bs =>
      have hb : b < 128 := h b (by simp)
      have h1 : utf8DecodeOne b bs = some (b, bs) := by
        unfold utf8DecodeOne
        rw [if_pos hb]
      have h2 := ih bs (by simp at hf; omega) (fun c hc => h c (by simp [hc]))
      rw [utf8DecodeLoop]
      simp only [h1, h2]

theorem utf8Decode_ascii (l : List Nat) (h : ∀ c ∈ l, c < 128) :
    utf8Decode l = some l :=
  utf8DecodeLoop_ascii l.length l le_rfl h

theorem utf8Encode_ascii (l : List Nat) (h : ∀ c ∈ l, c < 128) :
    utf8Encode l = l := by
  induction l with
  | nil => rfl
  | cons b bs ih =>
    have hb : b < 128 := h b (by simp)
    have ihs := ih (fun c hc => h c (by simp [hc]))
    simp only [utf8Encode, List.flatMap_cons] at ihs ⊢
    rw [utf8EncodeChar, if_pos hb, ihs]
    rfl

/-! ### URL lemmas -/

theorem urlParse_inv (s : List Nat) (u : Url) (h : urlParse s = some u) :
    u.scheme = s.takeWhile isSchemeChar ∧
    (∃ c, u.scheme.head? = some c ∧ isAlpha c = true) ∧
    ∃ rest2, s.dropWhile isSchemeChar = 58 :: 47 :: 47 :: rest2 ∧
      u.authority = rest2.takeWhile isNotSlash ∧
      u.authority.isEmpty = false ∧
      u.authority.all isAscii = true ∧
      (rest2.dropWhile isNotSlash).all isAscii = true ∧
      u.path = (if (rest2.dropWhile isNotSlash).isEmpty then [47]
                else rest2.dropWhile isNotSlash) := by
  unfold urlParse at h
  split at h
  · exact absurd h (by simp)
  next c hc =>
    split at h
    next hca =>
      split at h
      next rest2 hr =>
        split at h
        next hcond =>
          simp only [Option.some.injEq] at h
          subst h
          simp only [Bool.and_eq_true, Bool.not_eq_true'] at hcond
          exact ⟨rfl, ⟨c, hc, hca⟩, rest2, hr, rfl,
            hcond.1.1, hcond.1.2, hcond.2, rfl⟩
        · exact absurd h (by simp)
      · exact absurd h (by simp)
    · exact absurd h (by simp)

theorem urlParse_wf (s : List Nat) (u : Url) (h : urlParse s = some u) :
    wellFormedUrl u = true := by
  obtain ⟨hs, ⟨c, hc, hca⟩, rest2, hr, hauth, hne, hasc, hpasc, hpath⟩ :=
    urlParse_inv s u h
  have hA : (match u.scheme.head? with
      | none => false | some c => isAlpha c) = true := by
    rw [hc]
    exact hca
  have hB : u.scheme.all isSchemeChar = true := by
    rw [hs]
    exact all_takeWhile _ _
  have hC : (!u.authority.isEmpty) = true := by
    rw [hne]
    rfl
  have hD : u.authority.all (fun c => isAscii c && isNotSlash c) = true := by
    rw [List.all_eq_true]
    intro x hx
    have h1 : isAscii x = true := List.all_eq_true.mp hasc x hx
    have h2 : isNotSlash x = true := by
      rw [hauth] at hx
      exact List.mem_takeWhile_imp hx
    simp [h1, h2]
  have hE : (match u.path.head? with
      | none => false | some c => c == 47) = true := by
    rw [hpath]
    by_cases he : (rest2.dropWhile isNotSlash).isEmpty
    · rw [if_pos he]
      rfl
    · rw [if_neg he]
      cases hd : rest2.dropWhile isNotSlash with
      | nil => rw [hd] at he; exact absurd rfl he
      | cons p ps =>
        have hp := dropWhile_head_false isNotSlash rest2 p (by rw [hd]; rfl)
        simp [isNotSlash] at hp
        simp [hp]
  have hF : u.path.all isAscii = true := by
    rw [hpath]
    by_cases he : (rest2.dropWhile isNotSlash).isEmpty
    · rw [if_pos he]
      rfl
    · rw [if_neg he]
      exact hpasc
  unfold wellFormedUrl
  simp only [Bool.and_eq_true]
  exact ⟨⟨⟨⟨⟨hA, hB⟩, hC⟩, hD⟩, hE⟩, hF⟩

theorem urlParse_ascii (s : List Nat) (u : Url) (h : urlParse s = some u) :
    ∀ c ∈ s, c < 128 := by
  obtain ⟨hs, ⟨c, hc, hca⟩, rest2, hr, hauth, hne, hasc, hpasc, hpath⟩ :=
    urlParse_inv s u h
  intro x hx
  rw [← List.takeWhile_append_dropWhile (p := isSchemeChar) (l := s), hr] at hx
  rcases List.mem_append.mp hx with h1 | h2
  · exact isSchemeChar_lt_128 x (List.mem_takeWhile_imp h1)
  · simp only [List.mem_cons] at h2
    rcases h2 with rfl | rfl | rfl | h3
    · omega
    · omega
    · omega
    · rw [← List.takeWhile_append_dropWhile (p := isNotSlash) (l := rest2)] at h3
      rcases List.mem_append.mp h3 with h4 | h5
      · have h6 : isAscii x = true :=
          List.all_eq_true.mp hasc x (by rw [hauth]; exact h4)
        simpa [isAscii] using h6
      · have h6 : isAscii x = true := List.all_eq_true.mp hpasc x h5
        simpa [isAscii] using h6

theorem urlParse_build (scheme auth path : List Nat) (c : Nat)
    (hsh : scheme.head? = some c) (hca : isAlpha c = true)
    (hs : scheme.all isSchemeChar = true)
    (hane : auth.isEmpty = false) (haa : auth.all isAscii = true)
    (hans : auth.all isNotSlash = true)
    (hph : path.head? = some 47) (hpa : path.all isAscii = true) :
    urlParse (scheme ++ 58 :: 47 :: 47 :: (auth ++ path)) =
      some ⟨scheme, auth, path⟩ := by
  have h1 := takeWhile_all_append isSchemeChar scheme
    (58 :: 47 :: 47 :: (auth ++ path)) (List.all_eq_true.mp hs)
    (by intro d hd; simp at hd; subst hd; rfl)
  have h2 := takeWhile_all_append isNotSlash auth path
    (List.all_eq_true.mp hans)
    (by intro d hd; rw [hph] at hd; simp at hd; subst hd; rfl)
  have hpe : path.isEmpty = false := by
    cases path with
    | nil => simp at hph
    | cons p ps => rfl
  unfold urlParse
  rw [h1.1, h1.2, hsh]
  simp only [hca, if_true]
  rw [h2.1, h2.2]
  simp [hane, haa, hpa, hpe]

theorem urlSerialize_eq (u : Url) :
    urlSerialize u = u.scheme ++ 58 :: 47 :: 47 :: (u.authority ++ u.path) := by
  simp [urlSerialize]

theorem urlSerialize_roundtrip (u : Url) (h : wellFormedUrl u = true) :
    urlParse (urlSerialize u) = some u := by
  unfold wellFormedUrl at h
  simp only [Bool.and_eq_true] at h
  obtain ⟨⟨⟨⟨⟨hA, hB⟩, hC⟩, hD⟩, hE⟩, hF⟩ := h
  cases hsc : u.scheme.head? with
  | none => rw [hsc] at hA; simp at hA
  | some c =>
    have hca : isAlpha c = true := by rw [hsc] at hA; exact hA
    have hph : u.path.head? = some 47 := by
      cases hpp : u.path.head? with
      | none => rw [hpp] at hE; simp at hE
      | some p =>
        rw [hpp] at hE
        simp at hE
        rw [hE]
    have hane : u.authority.isEmpty = false := by
      simpa using hC
    have haa : u.authority.all isAscii = true := by
      rw [List.all_eq_true]
      intro x hx
      have hb := List.all_eq_true.mp hD x hx
      simp only [Bool.and_eq_true] at hb
      exact hb.1
    have hans : u.authority.all isNotSlash = true := by
      rw [List.all_eq_true]
      intro x hx
      have hb := List.all_eq_true.mp hD x hx
      simp only [Bool.and_eq_true] at hb
      exact hb.2
    rw [urlSerialize_eq]
    have hbuild := urlParse_build u.scheme u.authority u.path c hsc hca hB
      hane haa hans hph hF
    rw [hbuild]

theorem urlSerialize_ascii (u : Url) (h : wellFormedUrl u = true) :
    ∀ c ∈ urlSerialize u, c < 128 := by
  unfold wellFormedUrl at h
  simp only [Bool.and_eq_true] at h
  obtain ⟨⟨⟨⟨⟨hA, hB⟩, hC⟩, hD⟩, hE⟩, hF⟩ := h
  intro x hx
  rw [urlSerialize_eq] at hx
  rcases List.mem_append.mp hx with h1 | h2
  · exact isSchemeChar_lt_128 x (List.all_eq_true.mp hB x h1)
  · simp only [List.mem_cons] at h2
    rcases h2 with rfl | rfl | rfl | h3
    · omega
    · omega
    · omega
    · rcases List.mem_append.mp h3 with h4 | h5
      · have hb := List.all_eq_true.mp hD x h4
        simp only [Bool.and_eq_true] at hb
        simpa [isAscii] using hb.1
      · have hb := List.all_eq_true.mp hF x h5
        simpa [isAscii] using hb

theorem urlSerialize_length (u : Url) (h : wellFormedUrl u = true) :
    6 ≤ (urlSerialize u).length := by
  unfold wellFormedUrl at h
  simp only [Bool.and_eq_true] at h
  obtain ⟨⟨⟨⟨⟨hA, hB⟩, hC⟩, hD⟩, hE⟩, hF⟩ := h
  obtain ⟨sch, au, pa⟩ := u
  cases sch with
  | nil => simp at hA
  | cons a st =>
    cases hau : au with
    | nil => rw [hau] at hC; simp at hC
    | cons b bt =>
      cases pa with
      | nil => simp at hE
      | cons p pt =>
        simp [urlSerialize]
        omega

/-! ### Behaviour of `parse_header` on a single entry -/

theorem parse_header_single (b : List Nat) :
    parse_header [b] =
      (if b = starLit then ParseOutcome.ok AccessControlAllowOrigin.Any
       else if b = nullLit then ParseOutcome.ok AccessControlAllowOrigin.Null
       else
         match utf8Decode b with
         | none => ParseOutcome.err HeaderError.EncodingError
         | some t =>
           match urlParse t with
           | none => ParseOutcome.err HeaderError.FormatError
           | some u => ParseOutcome.ok (AccessControlAllowOrigin.Value u)) := rfl

/-! ### The claims -/

/-- C1: for every input sequence of raw header lines whose length is not
exactly one (zero entries, or two or more), `parse_header` returns the
multiplicity failure and never a typed value. -/
theorem C1_multiplicity_error (raw : List (List Nat)) (h : raw.length ≠ 1) :
    parse_header raw = ParseOutcome.err HeaderError.MultiplicityError := by
  unfold parse_header
  rw [if_neg h]

theorem C1_multiplicity_error_witness :
    ([] : List (List Nat)).length ≠ 1 ∧
    ([[97], [98]] : List (List Nat)).length ≠ 1 ∧
    parse_header [] = ParseOutcome.err HeaderError.MultiplicityError ∧
    parse_header [[97], [98]] = ParseOutcome.err HeaderError.MultiplicityError :=
  ⟨by decide, by decide, C1_multiplicity_error [] (by decide),
   C1_multiplicity_error [[97], [98]] (by decide)⟩

/-- C2: on a single entry matching neither literal, parse first attempts
UTF-8 decoding, then URL parsing: invalid UTF-8 fails with `EncodingError`,
and valid UTF-8 that is not a valid absolute URL fails with `FormatError`. -/
theorem C2_encoding_then_format (b : List Nat)
    (hstar : b ≠ starLit) (hnull : b ≠ nullLit) :
    (utf8Decode b = none →
      parse_header [b] = ParseOutcome.err HeaderError.EncodingError) ∧
    (∀ t, utf8Decode b = some t → urlParse t = none →
      parse_header [b] = ParseOutcome.err HeaderError.FormatError) := by
  constructor
  · intro hdec
    rw [parse_header_single, if_neg hstar, if_neg hnull, hdec]
  · intro t hdec hurl
    rw [parse_header_single, if_neg hstar, if_neg hnull]
    simp only [hdec, hurl]

theorem C2_encoding_then_format_witness :
    ([255] : List Nat) ≠ starLit ∧
    utf8Decode [255] = none ∧
    parse_header [[255]] = ParseOutcome.err HeaderError.EncodingError ∧
    urlParse [110, 111, 116, 32, 97, 32, 117, 114, 108] = none ∧
    parse_header [[110, 111, 116, 32, 97, 32, 117, 114, 108]] =
      ParseOutcome.err HeaderError.FormatError :=
  ⟨by decide, by decide,
   (C2_encoding_then_format [255] (by decide) (by decide)).1 (by decide),
   by decide,
   (C2_encoding_then_format [110, 111, 116, 32, 97, 32, 117, 114, 108]
     (by decide) (by decide)).2 [110, 111, 116, 32, 97, 32, 117, 114, 108]
     (by decide) (by decide)⟩

/-- C3: the two constant wire forms round-trip exactly: parsing `*` yields
`Any` and formatting `Any` yields exactly the byte `*`; parsing `null`
yields `Null` and formatting `Null` yields exactly the bytes `null`. -/
theorem C3_constant_roundtrip :
    parse_header [starLit] = ParseOutcome.ok AccessControlAllowOrigin.Any ∧
    formatBytes AccessControlAllowOrigin.Any = starLit ∧
    parse_header [nullLit] = ParseOutcome.ok AccessControlAllowOrigin.Null ∧
    formatBytes AccessControlAllowOrigin.Null = nullLit := by
  decide

/-- C4: for every syntactically valid absolute URL, parsing its bytes as a
single entry yields `Value` of the structurally equivalent origin, and
formatting that `Value` produces bytes that re-parse (through the same
`parse_header`) to an equivalent `Value` — round-trip up to URL
normalization, not necessarily byte-identical. -/
theorem C4_url_roundtrip (s : List Nat) (u : Url) (h : urlParse s = some u) :
    parse_header [utf8Encode s] =
      ParseOutcome.ok (AccessControlAllowOrigin.Value u) ∧
    parse_header [formatBytes (AccessControlAllowOrigin.Value u)] =
      ParseOutcome.ok (AccessControlAllowOrigin.Value u) := by
  have hascii := urlParse_ascii s u h
  have henc : utf8Encode s = s := utf8Encode_ascii s hascii
  have hwf := urlParse_wf s u h
  have hsa := urlSerialize_ascii u hwf
  have hlen := urlSerialize_length u hwf
  have hstar : urlParse starLit = none := by decide
  have hnull : urlParse nullLit = none := by decide
  have hsne_star : s ≠ starLit := fun he => by rw [he, hstar] at h; cases h
  have hsne_null : s ≠ nullLit := fun he => by rw [he, hnull] at h; cases h
  constructor
  · rw [henc, parse_header_single, if_neg hsne_star, if_neg hsne_null]
    simp only [utf8Decode_ascii s hascii, h]
  · have hfb : formatBytes (AccessControlAllowOrigin.Value u) = urlSerialize u := by
      unfold formatBytes fmt_header writeStr
      simp [utf8Encode_ascii _ hsa]
    have hser_star : urlSerialize u ≠ starLit := by
      intro he
      have hl := congrArg List.length he
      simp [starLit] at hl
      omega
    have hser_null : urlSerialize u ≠ nullLit := by
      intro he
      have hl := congrArg List.length he
      simp [nullLit] at hl
      omega
    rw [hfb, parse_header_single, if_neg hser_star, if_neg hser_null]
    simp only [utf8Decode_ascii _ hsa, urlSerialize_roundtrip u hwf]

theorem C4_url_roundtrip_witness :
    urlParse [104, 116, 116, 112, 58, 47, 47, 97] =
      some ⟨[104, 116, 116, 112], [97], [47]⟩ ∧
    (parse_header [utf8Encode [104, 116, 116, 112, 58, 47, 47, 97]] =
      ParseOutcome.ok
        (AccessControlAllowOrigin.Value ⟨[104, 116, 116, 112], [97], [47]⟩) ∧
    parse_header [formatBytes
        (AccessControlAllowOrigin.Value ⟨[104, 116, 116, 112], [97], [47]⟩)] =
      ParseOutcome.ok
        (AccessControlAllowOrigin.Value ⟨[104, 116, 116, 112], [97], [47]⟩)) :=
  ⟨by decide,
   C4_url_roundtrip [104, 116, 116, 112, 58, 47, 47, 97]
     ⟨[104, 116, 116, 112], [97], [47]⟩ (by decide)⟩

/-- C5: literal matching is exact and case-sensitive with no trimming: a
single entry differing in any way from the exact bytes `*` and `null` never
yields `Any` or `Null`; it falls through to the UTF-8/URL pipeline. -/
theorem C5_literal_exactness (b : List Nat)
    (hstar : b ≠ starLit) (hnull : b ≠ nullLit) :
    parse_header [b] ≠ ParseOutcome.ok AccessControlAllowOrigin.Any ∧
    parse_header [b] ≠ ParseOutcome.ok AccessControlAllowOrigin.Null ∧
    parse_header [b] =
      (match utf8Decode b with
       | none => ParseOutcome.err HeaderError.EncodingError
       | some t =>
         match urlParse t with
         | none => ParseOutcome.err HeaderError.FormatError
         | some u => ParseOutcome.ok (AccessControlAllowOrigin.Value u)) := by
  have heq : parse_header [b] =
      (match utf8Decode b with
       | none => ParseOutcome.err HeaderError.EncodingError
       | some t =>
         match urlParse t with
         | none => ParseOutcome.err HeaderError.FormatError
         | some u => ParseOutcome.ok (AccessControlAllowOrigin.Value u)) := by
    rw [parse_header_single, if_neg hstar, if_neg hnull]
  refine ⟨?_, ?_, heq⟩
  · rw [heq]
    cases hd : utf8Decode b with
    | none => simp
    | some t =>
      cases hu : urlParse t with
      | none => simp [hu]
      | some v => simp [hu]
  · rw [heq]
    cases hd : utf8Decode b with
    | none => simp
    | some t =>
      cases hu : urlParse t with
      | none => simp [hu]
      | some v => simp [hu]

theorem C5_literal_exactness_witness :
    ([78, 85, 76, 76] : List Nat) ≠ starLit ∧
    ([32, 42] : List Nat) ≠ starLit ∧
    (parse_header [[78, 85, 76, 76]] ≠
        ParseOutcome.ok AccessControlAllowOrigin.Any ∧
      parse_header [[78, 85, 76, 76]] ≠
        ParseOutcome.ok AccessControlAllowOrigin.Null ∧
      parse_header [[78, 85, 76, 76]] =
        (match utf8Decode [78, 85, 76, 76] with
         | none => ParseOutcome.err HeaderError.EncodingError
         | some t =>
           match urlParse t with
           | none => ParseOutcome.err HeaderError.FormatError
           | some u => ParseOutcome.ok (AccessControlAllowOrigin.Value u))) :=
  ⟨by decide, by decide,
   C5_literal_exactness [78, 85, 76, 76] (by decide) (by decide)⟩

/-- C6: formatting is total: for every `AccessControlAllowOrigin` value and
every formatter state, `fmt_header` succeeds and produces a byte sequence;
it never returns a failure. -/
theorem C6_format_total (v : AccessControlAllowOrigin) (f : List Nat) :
    (fmt_header v f).isSome = true := by
  cases v <;> rfl

/-- C7: formatting is deterministic: two runs of `fmt_header` on the same
value and formatter state produce byte-identical output. -/
theorem C7_format_deterministic (v : AccessControlAllowOrigin)
    (f b1 b2 : List Nat)
    (h1 : fmt_header v f = some b1) (h2 : fmt_header v f = some b2) :
    b1 = b2 := by
  rw [h1] at h2
  exact Option.some.inj h2

theorem C7_format_deterministic_witness : ([42] : List Nat) = [42] :=
  C7_format_deterministic AccessControlAllowOrigin.Any [] [42] [42] rfl rfl

/-- C8: every `Value` returned by `parse_header` is wire-representable: it
satisfies the structural URL invariant and comes from a successful
absolute-URL parse of some text. -/
theorem C8_value_invariant (raw : List (List Nat)) (u : Url)
    (h : parse_header raw = ParseOutcome.ok (AccessControlAllowOrigin.Value u)) :
    wellFormedUrl u = true ∧ ∃ t, urlParse t = some u := by
  unfold parse_header at h
  split at h
  · split at h
    · simp at h
    · split at h
      · simp at h
      · split at h
        · simp at h
        · split at h
          · simp at h
          next t hdec =>
            split at h
            · simp at h
            next v hurl =>
              simp only [ParseOutcome.ok.injEq,
                AccessControlAllowOrigin.Value.injEq] at h
              subst h
              exact ⟨urlParse_wf t _ hurl, t, hurl⟩
  · simp at h

theorem C8_value_invariant_witness :
    parse_header [[104, 116, 116, 112, 58, 47, 47, 97]] =
      ParseOutcome.ok
        (AccessControlAllowOrigin.Value ⟨[104, 116, 116, 112], [97], [47]⟩) ∧
    (wellFormedUrl ⟨[104, 116, 116, 112], [97], [47]⟩ = true ∧
      ∃ t, urlParse t = some ⟨[104, 116, 116, 112], [97], [47]⟩) :=
  ⟨by decide,
   C8_value_invariant [[104, 116, 116, 112, 58, 47, 47, 97]]
     ⟨[104, 116, 116, 112], [97], [47]⟩ (by decide)⟩

/-- C9: the registered header name is the fixed string
`"Access-Control-Allow-Origin"`, returned unchanged by every call. -/
theorem C9_header_name (x : Unit) :
    header_name x = "Access-Control-Allow-Origin" := rfl

/-- C10: the unchecked index into the raw input is always in bounds: the
branch of the embedding in which index 0 is absent is unreachable for every
input, because the access is guarded by the length-one check. -/
theorem C10_index_in_bounds (raw : List (List Nat)) :
    parse_header raw ≠ ParseOutcome.unreachableIndex := by
  cases raw with
  | nil =>
    unfold parse_header
    simp
  | cons r rs =>
    cases rs with
    | nil =>
      rw [parse_header_single r]
      by_cases h1 : r = starLit
      · simp [h1]
      · by_cases h2 : r = nullLit
        · subst h2
          decide
        · rw [if_neg h1, if_neg h2]
          cases hd : utf8Decode r with
          | none => simp
          | some t =>
            cases hu : urlParse t with
            | none => simp [hu]
            | some v => simp [hu]
    | cons r2 rs2 =>
      have hlen : (r :: r2 :: rs2).length ≠ 1 := by simp
      unfold parse_header
      rw [if_neg hlen]
      simp

end AccessControlAllowOriginHeader
